import Mathlib

/-!
Verification of the GhostEdit `harper-bridge` layer
(`src/harper-bridge/src/lib.rs`).

The bridge exposes one FFI entry point, `harper_lint`, which decodes a C
string, runs the harper linting pipeline over it, converts each retained
lint to a `LintResult` record (byte offsets, lowercase kind, filtered
suggestions), and serializes the records to JSON.

This file shallowly embeds the bridge: the external `harper_core` pipeline
(document construction plus lint-group run) is abstracted as a function
from the decoded character sequence to the list of lints it returns, and
every transformation the bridge itself performs is translated directly
from the Rust source.
-/

namespace HarperBridge

/-- The dialect flag of `harper_core::Dialect`, as named at the bridge's
single use site (`Dialect::American`) and in the spec's enumeration. -/
inductive Dialect
  | American
  | British
  deriving DecidableEq, Repr

/-- A char-offset span `[start, stop)` of a lint (`lint.span`). The Rust
field `end` is a Lean keyword, so it is named `stop` here. -/
structure Span where
  start : Nat
  stop : Nat
  deriving DecidableEq, Repr

/-- `harper_core::linting::Suggestion` as the bridge sees it: the match in
`harper_lint` distinguishes only `ReplaceWith(chars)` from everything else
(wildcard arm); the non-`ReplaceWith` variants follow the spec's data model. -/
inductive Suggestion
  | ReplaceWith (chars : List Char)
  | InsertAfter (chars : List Char)
  | Remove
  deriving DecidableEq, Repr

/-- A lint as consumed by the bridge loop: its char span, the `Debug`
rendering of its kind (the bridge only ever formats the kind with `{:?}`
and searches the resulting string, so the kind is embedded as that string),
its message, and its suggestions. -/
structure Lint where
  span : Span
  lint_kind : String
  message : String
  suggestions : List Suggestion
  deriving DecidableEq, Repr

/-- The serialized record struct of the bridge (`LintResult`); the Rust
field `end` is named `stop` here. -/
structure LintResult where
  word : String
  start : Nat
  stop : Nat
  kind : String
  message : String
  suggestions : List String
  deriving DecidableEq, Repr

/-- UTF-8 byte length of a character sequence. The Rust side computes it by
collecting the chars into a `String` and taking `.len()`. -/
def utf8Len (cs : List Char) : Nat :=
  (cs.map Char.utf8Size).sum

/-- Rust `str::contains` with a string pattern: some suffix of the haystack
starts with the pattern. -/
def strContains (hay pat : String) : Bool :=
  hay.toList.tails.any fun t => pat.toList.isPrefixOf t

/-- The kind classification of the bridge: `format!("{:?}", lint.lint_kind)`
is searched for `"Spelling"`, then `"Capitalization"`/`"Grammar"`, with
`"style"` as the fallback. -/
def kindLower (kind : String) : String :=
  if strContains kind "Spelling" then "spelling"
  else if strContains kind "Capitalization" || strContains kind "Grammar" then "grammar"
  else "style"

/-- The per-lint body of the bridge loop: the bounds check (`continue` on a
degenerate span) and the construction of the `LintResult` record. -/
def processLint (source : List Char) (lint : Lint) : Option LintResult :=
  if lint.span.start ≥ source.length ∨ lint.span.stop > source.length ∨
      lint.span.start ≥ lint.span.stop then
    none
  else
    some
      { word := String.mk ((source.drop lint.span.start).take (lint.span.stop - lint.span.start))
        start := utf8Len (source.take lint.span.start)
        stop := utf8Len (source.take lint.span.stop)
        kind := kindLower lint.lint_kind
        message := lint.message
        suggestions := lint.suggestions.filterMap fun s =>
          match s with
          | .ReplaceWith chars => some (String.mk chars)
          | _ => none }

/-- The full bridge loop over the lints returned by the pipeline. -/
def bridgeResults (source : List Char) (lints : List Lint) : List LintResult :=
  lints.filterMap (processLint source)

/-- Lowercase hexadecimal digit, as used by `serde_json` control escapes. -/
def hexDigit (n : Nat) : Char :=
  if n < 10 then Char.ofNat (48 + n) else Char.ofNat (87 + n)

/-- `serde_json` escaping of one character inside a JSON string: quote and
backslash are escaped, control characters get their short escape or a
`\u00XX` escape, everything else is emitted verbatim. -/
def escChar (c : Char) : String :=
  if c = Char.ofNat 34 then "\\\""
  else if c = Char.ofNat 92 then "\\\\"
  else if c = Char.ofNat 8 then "\\b"
  else if c = Char.ofNat 9 then "\\t"
  else if c = Char.ofNat 10 then "\\n"
  else if c = Char.ofNat 12 then "\\f"
  else if c = Char.ofNat 13 then "\\r"
  else if c.toNat < 32 then
    String.mk ['\\', 'u', '0', '0', hexDigit (c.toNat / 16), hexDigit (c.toNat % 16)]
  else
    String.mk [c]

/-- `serde_json` rendering of a string value. -/
def jsonStr (s : String) : String :=
  "\"" ++ String.join (s.toList.map escChar) ++ "\""

/-- `serde_json` rendering of a list of string values. -/
def jsonStrList (l : List String) : String :=
  "[" ++ String.intercalate "," (l.map jsonStr) ++ "]"

/-- `serde_json` rendering of one `LintResult`, fields in declaration
order as `#[derive(Serialize)]` emits them. -/
def lintResultToJson (r : LintResult) : String :=
  "\x7b\"word\":" ++ jsonStr r.word
    ++ ",\"start\":" ++ toString r.start
    ++ ",\"end\":" ++ toString r.stop
    ++ ",\"kind\":" ++ jsonStr r.kind
    ++ ",\"message\":" ++ jsonStr r.message
    ++ ",\"suggestions\":" ++ jsonStrList r.suggestions
    ++ "\x7d"

/-- `serde_json::to_string` of the result vector. -/
def resultsToJson (rs : List LintResult) : String :=
  "[" ++ String.intercalate "," (rs.map lintResultToJson) ++ "]"

/-- The states of the C-string argument as the bridge distinguishes them:
a null pointer, a non-null buffer whose bytes are not valid UTF-8
(`CStr::to_str` fails), or a successfully decoded character sequence. -/
inductive FfiInput
  | nullPtr
  | invalidUtf8
  | text (chars : List Char)
  deriving DecidableEq, Repr

/-- The bridge entry point `harper_lint`. The external pipeline — curated
dictionary, document construction, `LintGroup::new_curated(..).lint(..)` —
is abstracted as `lintOracle`, the function from the decoded character
sequence to the lint list the group returns on the document built from it. -/
def harper_lint (lintOracle : List Char → List Lint) (input : FfiInput) : String :=
  match input with
  | .nullPtr => "[]"
  | .invalidUtf8 => "[]"
  | .text chars => resultsToJson (bridgeResults chars (lintOracle chars))

/-- The dialect the bridge passes to `LintGroup::new_curated`: the literal
`Dialect::American`, whatever the input is. -/
def harperDialect (_ : FfiInput) : Dialect :=
  Dialect.American

/-- True exactly on `ReplaceWith` suggestions. -/
def isReplaceWith : Suggestion → Bool
  | .ReplaceWith _ => true
  | _ => false

/-- The replacement text of a `ReplaceWith` suggestion. -/
def suggestionText : Suggestion → String
  | .ReplaceWith chars => String.mk chars
  | _ => ""

/-- A byte offset that lands on a character boundary of the source: it is
the UTF-8 byte length of some char prefix of the source. -/
def isCharBoundary (source : List Char) (b : Nat) : Prop :=
  ∃ i, i ≤ source.length ∧ utf8Len (source.take i) = b

/-- Lexicographic order on (start, stop) pairs: ascending start, ties
broken by ascending stop. -/
def spanLe (p q : Nat × Nat) : Prop :=
  p.1 < q.1 ∨ (p.1 = q.1 ∧ p.2 ≤ q.2)

instance : DecidableRel spanLe := fun p q =>
  inferInstanceAs (Decidable (p.1 < q.1 ∨ (p.1 = q.1 ∧ p.2 ≤ q.2)))

/-- Example source text, the chars of "Teh cat". -/
def exSource : List Char :=
  ['T', 'e', 'h', ' ', 'c', 'a', 't']

/-- Example lint over `exSource`: char span `[0, 3)`, spelling kind, one
`ReplaceWith` and one `Remove` suggestion. -/
def exLint : Lint :=
  { span := { start := 0, stop := 3 }
    lint_kind := "Spelling"
    message := "msg"
    suggestions := [Suggestion.ReplaceWith ['T', 'h', 'e'], Suggestion.Remove] }

/-- The record the bridge produces for `exLint` on `exSource`. -/
def exResult : LintResult :=
  { word := "Teh", start := 0, stop := 3, kind := "spelling", message := "msg",
    suggestions := ["The"] }

/-- Second example lint on `exSource`: char span `[4, 7)`, a style kind. -/
def exLint2 : Lint :=
  { span := { start := 4, stop := 7 }
    lint_kind := "WordChoice"
    message := "m2"
    suggestions := [] }

/-- Source with a two-byte character first: the chars of "é!". -/
def c1Source : List Char :=
  ['é', '!']

/-- A lint with char span `[1, 2)` over `c1Source`. -/
def c1Lint : Lint :=
  { span := { start := 1, stop := 2 }, lint_kind := "Spelling", message := "m",
    suggestions := [] }

/-- The record the bridge produces for `c1Lint` on `c1Source`. -/
def c1Result : LintResult :=
  { word := "!", start := 2, stop := 3, kind := "spelling", message := "m",
    suggestions := [] }

/-- A pipeline that always returns `[exLint]`. -/
def oracleA : List Char → List Lint :=
  fun _ => [exLint]

/-- A pipeline that returns `[exLint]` exactly on 7-char inputs. -/
def oracleB : List Char → List Lint :=
  fun chars => if chars.length = 7 then [exLint] else []

theorem utf8Len_append (a b : List Char) : utf8Len (a ++ b) = utf8Len a + utf8Len b := by
  simp [utf8Len]

theorem length_le_utf8Len (cs : List Char) : cs.length ≤ utf8Len cs := by
  induction cs with
  | nil => simp [utf8Len]
  | cons c cs ih =>
    have := Char.utf8Size_pos c
    simp only [utf8Len, List.map_cons, List.sum_cons, List.length_cons]
    simp only [utf8Len] at ih
    omega

theorem utf8Len_take_mono (cs : List Char) {i j : Nat} (h : i ≤ j) :
    utf8Len (cs.take i) ≤ utf8Len (cs.take j) := by
  have h2 : (cs.take j).take i = cs.take i := by
    rw [List.take_take]
    congr 1
    omega
  calc utf8Len (cs.take i) = utf8Len ((cs.take j).take i) := by rw [h2]
    _ ≤ utf8Len ((cs.take j).take i) + utf8Len ((cs.take j).drop i) := Nat.le_add_right _ _
    _ = utf8Len (cs.take j) := by rw [← utf8Len_append, List.take_append_drop]

theorem utf8Len_take_strict (cs : List Char) {i j : Nat} (hij : i < j) (hj : j ≤ cs.length) :
    utf8Len (cs.take i) < utf8Len (cs.take j) := by
  have h2 : (cs.take j).take i = cs.take i := by
    rw [List.take_take]
    congr 1
    omega
  have hlen : ((cs.take j).drop i).length = j - i := by
    rw [List.length_drop, List.length_take, Nat.min_eq_left hj]
  have hpos : 1 ≤ utf8Len ((cs.take j).drop i) := by
    have := length_le_utf8Len ((cs.take j).drop i)
    omega
  calc utf8Len (cs.take i) = utf8Len ((cs.take j).take i) := by rw [h2]
    _ < utf8Len ((cs.take j).take i) + utf8Len ((cs.take j).drop i) := by omega
    _ = utf8Len (cs.take j) := by rw [← utf8Len_append, List.take_append_drop]

theorem utf8ByteSize_mk (cs : List Char) : (String.mk cs).utf8ByteSize = utf8Len cs := by
  show String.utf8ByteSize.go cs = utf8Len cs
  induction cs with
  | nil => rfl
  | cons c cs ih =>
    show String.utf8ByteSize.go cs + c.utf8Size = utf8Len (c :: cs)
    rw [ih]
    simp [utf8Len, Nat.add_comm]

theorem processLint_none {source : List Char} {lint : Lint}
    (h : lint.span.start ≥ source.length ∨ lint.span.stop > source.length ∨
      lint.span.start ≥ lint.span.stop) :
    processLint source lint = none := by
  unfold processLint
  rw [if_pos h]

theorem processLint_some_elim {source : List Char} {lint : Lint} {r : LintResult}
    (h : processLint source lint = some r) :
    lint.span.start < lint.span.stop ∧ lint.span.stop ≤ source.length ∧
      r = { word := String.mk ((source.drop lint.span.start).take (lint.span.stop - lint.span.start))
            start := utf8Len (source.take lint.span.start)
            stop := utf8Len (source.take lint.span.stop)
            kind := kindLower lint.lint_kind
            message := lint.message
            suggestions := lint.suggestions.filterMap fun s =>
              match s with
              | .ReplaceWith chars => some (String.mk chars)
              | _ => none } := by
  unfold processLint at h
  split at h
  · exact absurd h (by simp)
  · next hcond =>
    push_neg at hcond
    obtain ⟨h1, h2, h3⟩ := hcond
    exact ⟨by omega, by omega, (Option.some.inj h).symm⟩

theorem mem_bridgeResults {source : List Char} {lints : List Lint} {r : LintResult} :
    r ∈ bridgeResults source lints ↔ ∃ lint ∈ lints, processLint source lint = some r := by
  simp [bridgeResults, List.mem_filterMap]

theorem filterMap_replaceWith (ss : List Suggestion) :
    (ss.filterMap fun s =>
      match s with
      | Suggestion.ReplaceWith chars => some (String.mk chars)
      | _ => none) = (ss.filter fun s => isReplaceWith s).map suggestionText := by
  induction ss with
  | nil => rfl
  | cons s ss ih =>
    cases s <;>
      simp [List.filterMap_cons, List.filter_cons, isReplaceWith, suggestionText, ih]

theorem kindLower_cases (k : String) :
    kindLower k = "spelling" ∨ kindLower k = "grammar" ∨ kindLower k = "style" := by
  unfold kindLower
  split
  · exact Or.inl rfl
  · split
    · exact Or.inr (Or.inl rfl)
    · exact Or.inr (Or.inr rfl)

theorem kindLower_spelling {k : String} (h : strContains k "Spelling" = true) :
    kindLower k = "spelling" := by
  unfold kindLower
  rw [if_pos h]

theorem kindLower_grammar {k : String} (h1 : strContains k "Spelling" = false)
    (h2 : (strContains k "Capitalization" || strContains k "Grammar") = true) :
    kindLower k = "grammar" := by
  unfold kindLower
  rw [if_neg (by simp [h1]), if_pos h2]

theorem kindLower_style {k : String} (h1 : strContains k "Spelling" = false)
    (h2 : (strContains k "Capitalization" || strContains k "Grammar") = false) :
    kindLower k = "style" := by
  unfold kindLower
  rw [if_neg (by simp [h1]), if_neg (by simp [h2])]

/-- C1: the claim that the emitted start and end fields equal the char-index
span of the underlying lint fails: on the source "é!" and a lint with char
span `[1, 2)`, the emitted record carries `(start, stop) = (2, 3)` (byte
offsets past the two-byte "é"), not the char span `(1, 2)`. -/
theorem C1_counterexample :
    (bridgeResults c1Source [c1Lint]).map (fun r => (r.start, r.stop)) = [(2, 3)] ∧
    (c1Lint.span.start, c1Lint.span.stop) = (1, 2) ∧
    (bridgeResults c1Source [c1Lint]).map (fun r => (r.start, r.stop)) ≠
      [(c1Lint.span.start, c1Lint.span.stop)] := by
  refine ⟨by decide, by decide, by decide⟩

/-- C1 (amended): for every record emitted by the bridge, the start and stop
fields are UTF-8 byte offsets of the underlying lint's char-span boundaries
— the byte sizes of the char prefixes of length `span.start` and
`span.stop` — rather than the char indices themselves. -/
theorem C1_byte_offset_fields (source : List Char) (lints : List Lint) (r : LintResult)
    (hr : r ∈ bridgeResults source lints) :
    ∃ lint ∈ lints,
      r.start = (String.mk (source.take lint.span.start)).utf8ByteSize ∧
      r.stop = (String.mk (source.take lint.span.stop)).utf8ByteSize := by
  obtain ⟨lint, hmem, hp⟩ := mem_bridgeResults.mp hr
  obtain ⟨-, -, rfl⟩ := processLint_some_elim hp
  exact ⟨lint, hmem, (utf8ByteSize_mk _).symm, (utf8ByteSize_mk _).symm⟩

/-- C1 witness: the amended theorem applied to the concrete record the
bridge produces on `c1Source`. -/
theorem C1_byte_offset_fields_witness :
    ∃ lint ∈ [c1Lint],
      c1Result.start = (String.mk (c1Source.take lint.span.start)).utf8ByteSize ∧
      c1Result.stop = (String.mk (c1Source.take lint.span.stop)).utf8ByteSize :=
  C1_byte_offset_fields c1Source [c1Lint] c1Result (by decide)

/-- C2: a null pointer and an invalid-UTF-8 buffer both yield the empty
JSON array, the empty result list also serializes to it, and every input
yields a definite serialized result (no error path exists). -/
theorem C2_degenerate_inputs (lintOracle : List Char → List Lint) :
    harper_lint lintOracle FfiInput.nullPtr = "[]" ∧
    harper_lint lintOracle FfiInput.invalidUtf8 = "[]" ∧
    resultsToJson [] = "[]" ∧
    ∀ input : FfiInput,
      harper_lint lintOracle input = "[]" ∨
      ∃ chars, input = FfiInput.text chars ∧
        harper_lint lintOracle input =
          resultsToJson (bridgeResults chars (lintOracle chars)) := by
  refine ⟨rfl, rfl, by decide, ?_⟩
  intro input
  cases input with
  | nullPtr => exact Or.inl rfl
  | invalidUtf8 => exact Or.inl rfl
  | text chars => exact Or.inr ⟨chars, rfl, rfl⟩

/-- C3: lints with degenerate spans — zero-length or exceeding the document
bounds — are filtered out and produce no record, and every emitted record
comes from a lint whose span satisfies `start < stop ≤ source.length`, so
the char slice taken for it has exactly `stop - start` characters (the
slicing is in bounds, nothing is truncated). -/
theorem C3_span_filter (source : List Char) (lints : List Lint) :
    (∀ lint ∈ lints,
        lint.span.start ≥ source.length ∨ lint.span.stop > source.length ∨
          lint.span.start ≥ lint.span.stop →
        processLint source lint = none) ∧
    ∀ r ∈ bridgeResults source lints,
      ∃ lint ∈ lints, processLint source lint = some r ∧
        lint.span.start < lint.span.stop ∧ lint.span.stop ≤ source.length ∧
        ((source.drop lint.span.start).take (lint.span.stop - lint.span.start)).length =
          lint.span.stop - lint.span.start := by
  constructor
  · intro lint _ h
    exact processLint_none h
  · intro r hr
    obtain ⟨lint, hmem, hp⟩ := mem_bridgeResults.mp hr
    obtain ⟨h1, h2, -⟩ := processLint_some_elim hp
    refine ⟨lint, hmem, hp, h1, h2, ?_⟩
    rw [List.length_take, List.length_drop]
    omega

/-- C3 witness: the filter theorem applied to the concrete record produced
on `exSource`. -/
theorem C3_span_filter_witness :
    ∃ lint ∈ [exLint], processLint exSource lint = some exResult ∧
      lint.span.start < lint.span.stop ∧ lint.span.stop ≤ exSource.length ∧
      ((exSource.drop lint.span.start).take (lint.span.stop - lint.span.start)).length =
        lint.span.stop - lint.span.start :=
  (C3_span_filter exSource [exLint]).2 exResult (by decide)

/-- C4: the suggestions of every emitted record are exactly its lint's
`ReplaceWith` suggestions converted to strings, in their original order;
suggestions of any other kind are dropped. -/
theorem C4_suggestions (source : List Char) (lints : List Lint) (r : LintResult)
    (hr : r ∈ bridgeResults source lints) :
    ∃ lint ∈ lints,
      r.suggestions =
        (lint.suggestions.filter fun s => isReplaceWith s).map suggestionText := by
  obtain ⟨lint, hmem, hp⟩ := mem_bridgeResults.mp hr
  obtain ⟨-, -, rfl⟩ := processLint_some_elim hp
  exact ⟨lint, hmem, filterMap_replaceWith _⟩

/-- C4 witness: the suggestion theorem applied to the concrete record, whose
lint carries one `ReplaceWith` (kept) and one `Remove` (dropped). -/
theorem C4_suggestions_witness :
    ∃ lint ∈ [exLint],
      exResult.suggestions =
        (lint.suggestions.filter fun s => isReplaceWith s).map suggestionText :=
  C4_suggestions exSource [exLint] exResult (by decide)

/-- C5: every emitted record's kind is one of the lowercase strings
"spelling", "grammar", "style", computed from the Debug rendering of the
lint's kind: a kind containing "Spelling" gives "spelling"; otherwise one
containing "Capitalization" or "Grammar" gives "grammar"; all remaining
kinds give "style". -/
theorem C5_kind_classification (source : List Char) (lints : List Lint) (r : LintResult)
    (hr : r ∈ bridgeResults source lints) :
    (r.kind = "spelling" ∨ r.kind = "grammar" ∨ r.kind = "style") ∧
    ∃ lint ∈ lints,
      (strContains lint.lint_kind "Spelling" = true → r.kind = "spelling") ∧
      (strContains lint.lint_kind "Spelling" = false →
        (strContains lint.lint_kind "Capitalization" || strContains lint.lint_kind "Grammar") = true →
        r.kind = "grammar") ∧
      (strContains lint.lint_kind "Spelling" = false →
        (strContains lint.lint_kind "Capitalization" || strContains lint.lint_kind "Grammar") = false →
        r.kind = "style") := by
  obtain ⟨lint, hmem, hp⟩ := mem_bridgeResults.mp hr
  obtain ⟨-, -, rfl⟩ := processLint_some_elim hp
  refine ⟨kindLower_cases _, lint, hmem, ?_, ?_, ?_⟩
  · exact fun h => kindLower_spelling h
  · exact fun h1 h2 => kindLower_grammar h1 h2
  · exact fun h1 h2 => kindLower_style h1 h2

/-- C5 witness: the classification theorem applied to the concrete record
produced on `exSource` with a "Spelling" kind. -/
theorem C5_kind_classification_witness :
    (exResult.kind = "spelling" ∨ exResult.kind = "grammar" ∨ exResult.kind = "style") ∧
    ∃ lint ∈ [exLint],
      (strContains lint.lint_kind "Spelling" = true → exResult.kind = "spelling") ∧
      (strContains lint.lint_kind "Spelling" = false →
        (strContains lint.lint_kind "Capitalization" || strContains lint.lint_kind "Grammar") = true →
        exResult.kind = "grammar") ∧
      (strContains lint.lint_kind "Spelling" = false →
        (strContains lint.lint_kind "Capitalization" || strContains lint.lint_kind "Grammar") = false →
        exResult.kind = "style") :=
  C5_kind_classification exSource [exLint] exResult (by decide)

/-- C6 counterexample: the dialect passed to `new_curated` is the constant
American for every input — even for a text spelled the British way — and no
two inputs yield different dialects, so no input lets the caller choose the
dialect. -/
theorem C6_counterexample :
    harperDialect (FfiInput.text ['c', 'o', 'l', 'o', 'u', 'r']) = Dialect.American ∧
    ¬∃ i j : FfiInput, harperDialect i ≠ harperDialect j := by
  refine ⟨rfl, ?_⟩
  rintro ⟨i, j, h⟩
  exact h rfl

/-- C6 (amended): the entry point takes only the text buffer; there is no
dialect selector, and the dialect passed to `new_curated` is the hardcoded
`Dialect::American` regardless of the input. -/
theorem C6_dialect_hardcoded : ∀ input : FfiInput, harperDialect input = Dialect.American :=
  fun _ => rfl

/-- C7: if the lints handed over by the lint group are sorted by ascending
char start offset with ties broken by ascending char stop offset, then the
emitted records are sorted the same way on their byte offsets: the bounds
filter and the char-to-byte conversion preserve the order. -/
theorem C7_order_preserved (source : List Char) (lints : List Lint)
    (hsorted : (lints.map fun l => (l.span.start, l.span.stop)).Pairwise spanLe) :
    ((bridgeResults source lints).map fun r => (r.start, r.stop)).Pairwise spanLe := by
  rw [List.pairwise_map] at hsorted ⊢
  unfold bridgeResults
  refine List.Pairwise.filterMap (processLint source) ?_ hsorted
  intro a b hab r hr r' hr'
  obtain ⟨ha1, ha2, rfl⟩ := processLint_some_elim (Option.mem_def.mp hr)
  obtain ⟨hb1, hb2, rfl⟩ := processLint_some_elim (Option.mem_def.mp hr')
  rcases hab with hlt | ⟨heq, hle⟩
  · exact Or.inl (utf8Len_take_strict source hlt (by omega))
  · have heq' : a.span.start = b.span.start := heq
    have hle' : a.span.stop ≤ b.span.stop := hle
    refine Or.inr ⟨?_, utf8Len_take_mono source hle'⟩
    show utf8Len (source.take a.span.start) = utf8Len (source.take b.span.start)
    rw [heq']

/-- C7 witness: the order theorem applied to two concrete sorted lints. -/
theorem C7_order_preserved_witness :
    ((bridgeResults exSource [exLint, exLint2]).map fun r => (r.start, r.stop)).Pairwise spanLe :=
  C7_order_preserved exSource [exLint, exLint2] (by decide)

/-- C8: determinism — the serialized output is a function of the decoded
text and of the lint list the pipeline returns on it: two invocations on
the same text whose pipelines return the same lints on it produce identical
serialized output. -/
theorem C8_deterministic (oracle1 oracle2 : List Char → List Lint) (chars : List Char)
    (h : oracle1 chars = oracle2 chars) :
    harper_lint oracle1 (FfiInput.text chars) = harper_lint oracle2 (FfiInput.text chars) := by
  show resultsToJson (bridgeResults chars (oracle1 chars)) =
    resultsToJson (bridgeResults chars (oracle2 chars))
  rw [h]

/-- C8 witness: two syntactically different pipelines that agree on the
concrete text produce the same serialized output on it. -/
theorem C8_deterministic_witness :
    harper_lint oracleA (FfiInput.text exSource) = harper_lint oracleB (FfiInput.text exSource) :=
  C8_deterministic oracleA oracleB exSource (by decide)

/-- C9: each emitted record's word is exactly the char slice of the input at
the lint's char span — the prefix up to `span.stop` is the prefix up to
`span.start` followed by the word's chars — and the emitted byte offsets
differ by exactly the word's UTF-8 byte length. -/
theorem C9_word_and_width (source : List Char) (lints : List Lint) (r : LintResult)
    (hr : r ∈ bridgeResults source lints) :
    ∃ lint ∈ lints,
      source.take lint.span.stop = source.take lint.span.start ++ r.word.data ∧
      r.word.data = (source.drop lint.span.start).take (lint.span.stop - lint.span.start) ∧
      r.stop = r.start + r.word.utf8ByteSize ∧
      r.stop - r.start = r.word.utf8ByteSize := by
  obtain ⟨lint, hmem, hp⟩ := mem_bridgeResults.mp hr
  obtain ⟨h1, h2, rfl⟩ := processLint_some_elim hp
  have hsplit : source.take lint.span.stop =
      source.take lint.span.start ++
        (source.drop lint.span.start).take (lint.span.stop - lint.span.start) := by
    conv_lhs =>
      rw [show lint.span.stop = lint.span.start + (lint.span.stop - lint.span.start) by omega]
    exact List.take_add source _ _
  have hbytes : utf8Len (source.take lint.span.stop) =
      utf8Len (source.take lint.span.start) +
        utf8Len ((source.drop lint.span.start).take (lint.span.stop - lint.span.start)) := by
    rw [hsplit, utf8Len_append]
  refine ⟨lint, hmem, hsplit, rfl, ?_, ?_⟩
  · show utf8Len (source.take lint.span.stop) = utf8Len (source.take lint.span.start) +
      (String.mk ((source.drop lint.span.start).take (lint.span.stop - lint.span.start))).utf8ByteSize
    rw [utf8ByteSize_mk]
    exact hbytes
  · show utf8Len (source.take lint.span.stop) - utf8Len (source.take lint.span.start) =
      (String.mk ((source.drop lint.span.start).take (lint.span.stop - lint.span.start))).utf8ByteSize
    rw [utf8ByteSize_mk]
    omega

/-- C9 witness: the word/width theorem applied to the concrete record
produced on `exSource`. -/
theorem C9_word_and_width_witness :
    ∃ lint ∈ [exLint],
      exSource.take lint.span.stop = exSource.take lint.span.start ++ exResult.word.data ∧
      exResult.word.data =
        (exSource.drop lint.span.start).take (lint.span.stop - lint.span.start) ∧
      exResult.stop = exResult.start + exResult.word.utf8ByteSize ∧
      exResult.stop - exResult.start = exResult.word.utf8ByteSize :=
  C9_word_and_width exSource [exLint] exResult (by decide)

/-- C10: each emitted record's start and stop are byte offsets landing on
character boundaries of the input, with `start < stop ≤` the input's total
UTF-8 byte size. -/
theorem C10_byte_offset_invariants (source : List Char) (lints : List Lint) (r : LintResult)
    (hr : r ∈ bridgeResults source lints) :
    isCharBoundary source r.start ∧ isCharBoundary source r.stop ∧
    r.start < r.stop ∧ r.stop ≤ (String.mk source).utf8ByteSize := by
  obtain ⟨lint, hmem, hp⟩ := mem_bridgeResults.mp hr
  obtain ⟨h1, h2, rfl⟩ := processLint_some_elim hp
  refine ⟨⟨lint.span.start, by omega, rfl⟩, ⟨lint.span.stop, h2, rfl⟩, ?_, ?_⟩
  · exact utf8Len_take_strict source h1 h2
  · rw [utf8ByteSize_mk]
    have := utf8Len_take_mono source h2
    rwa [List.take_length] at this

/-- C10 witness: the invariants theorem applied to the concrete record
produced on `exSource`. -/
theorem C10_byte_offset_invariants_witness :
    isCharBoundary exSource exResult.start ∧ isCharBoundary exSource exResult.stop ∧
    exResult.start < exResult.stop ∧ exResult.stop ≤ (String.mk exSource).utf8ByteSize :=
  C10_byte_offset_invariants exSource [exLint] exResult (by decide)

end HarperBridge
